import Mathlib

/-!
Verification of the feria-mode offline queue subsystem (durable queue,
connectivity monitor, sync engine) against its natural-language specification.

The development is a shallow embedding of the TypeScript sources:
  * `src/extensions/feria-mode/src/connectivity.ts` — `MessageQueue` (the
    SQLite-backed durable queue) and `ConnectivityMonitor`;
  * `src/extensions/feria-mode/index.ts` — the sync engine (`processQueue`),
    the intake gate and the re-injection payload;
  * the configuration schema (`feriaModeConfigSchema.parse`).

The SQLite table `queued_messages` is modelled as a list of rows in insertion
(rowid) order.  `ORDER BY queued_at ASC` is modelled as a stable sort on
`queuedAt` (equal keys keep insertion order), matching the spec's stated tie
rule.  UUIDs are modelled as `Nat` identifiers; wall-clock instants
(`Date.now()`) are explicit `Nat` parameters.  `JSON.stringify`/`JSON.parse`
round-tripping of metadata is modelled as the identity on an association list.
-/

namespace Feria

/-- Message status, column `status` of `queued_messages`
(`pending | processing | failed | completed`). -/
inductive Status where
  | pending
  | processing
  | failed
  | completed
deriving DecidableEq, Repr

/-- Metadata values: arbitrary JSON round-tripped verbatim by the queue.
`feria` is the replay-timestamp object the sync engine writes under the
`feriaMode` key (`{ queuedAt, processedAt }` in `index.ts`). -/
inductive MetaValue where
  | str (s : String)
  | num (n : Int)
  | feria (queuedAt processedAt : Nat)
deriving DecidableEq, Repr

/-- One row of `queued_messages` (type `QueuedMessage` in `queue.ts`). -/
structure QueuedMessage where
  id : Nat
  channel : String
  accountId : String
  senderId : String
  chatId : String
  body : String
  mediaPath : Option String
  metadata : List (String × MetaValue)
  queuedAt : Nat
  attempts : Nat
  lastAttemptAt : Option Nat
  status : Status
deriving DecidableEq, Repr

/-- The table `queued_messages`, rows in insertion (rowid) order. -/
abbrev Store := List QueuedMessage

/-- Comparison used by `ORDER BY queued_at ASC`. -/
def leQueuedAt (a b : QueuedMessage) : Prop := a.queuedAt ≤ b.queuedAt

instance : DecidableRel leQueuedAt := fun a b => Nat.decLe a.queuedAt b.queuedAt

instance : IsTotal QueuedMessage leQueuedAt := ⟨fun a b => Nat.le_total a.queuedAt b.queuedAt⟩

instance : IsTrans QueuedMessage leQueuedAt := ⟨fun _ _ _ => Nat.le_trans⟩

/-- `MessageQueue.enqueue`: INSERT a fresh row with `status = 'pending'`,
`attempts = 0`, `queued_at = now`; returns the created record. -/
def enqueue (db : Store) (freshId now : Nat) (channel accountId senderId chatId body : String)
    (mediaPath : Option String) (metadata : List (String × MetaValue)) : Store × QueuedMessage :=
  let m : QueuedMessage :=
    { id := freshId, channel := channel, accountId := accountId, senderId := senderId,
      chatId := chatId, body := body, mediaPath := mediaPath, metadata := metadata,
      queuedAt := now, attempts := 0, lastAttemptAt := none, status := Status.pending }
  (db ++ [m], m)

/-- The result set of `SELECT * WHERE status = 'pending' ORDER BY queued_at ASC`
(no LIMIT): the pending rows, stably sorted by `queuedAt` (ties keep insertion
order). -/
def pendingSorted (db : Store) : List QueuedMessage :=
  (db.filter fun m => decide (m.status = Status.pending)).insertionSort leQueuedAt

/-- `MessageQueue.getPending(limit)`:
`SELECT * WHERE status = 'pending' ORDER BY queued_at ASC LIMIT ?`. -/
def getPending (db : Store) (limit : Nat) : List QueuedMessage :=
  (pendingSorted db).take limit

/-- `MessageQueue.markProcessing(id)`:
`UPDATE ... SET status='processing', attempts=attempts+1, last_attempt_at=? WHERE id=?`.
Note the UPDATE is unconditional on the current status. -/
def markProcessing (db : Store) (now target : Nat) : Store :=
  db.map fun m =>
    if m.id = target then
      { m with status := Status.processing, attempts := m.attempts + 1,
               lastAttemptAt := some now }
    else m

/-- `MessageQueue.markCompleted(id)`: `UPDATE ... SET status='completed' WHERE id=?`. -/
def markCompleted (db : Store) (target : Nat) : Store :=
  db.map fun m => if m.id = target then { m with status := Status.completed } else m

/-- `MessageQueue.markFailed(id)`: `UPDATE ... SET status='failed' WHERE id=?`. -/
def markFailed (db : Store) (target : Nat) : Store :=
  db.map fun m => if m.id = target then { m with status := Status.failed } else m

/-- `MessageQueue.resetProcessing()`:
`UPDATE ... SET status='pending' WHERE status='processing'`; returns `changes`. -/
def resetProcessing (db : Store) : Store × Nat :=
  (db.map fun m =>
      if m.status = Status.processing then { m with status := Status.pending } else m,
   db.countP fun m => decide (m.status = Status.processing))

/-- `MessageQueue.cleanup(maxAgeMs)`:
`DELETE WHERE status IN ('completed','failed') AND queued_at < cutoff` with
`cutoff = Date.now() - maxAgeMs` (computed in `Int` since it may be negative);
returns `changes`. -/
def cleanup (db : Store) (now maxAgeMs : Nat) : Store × Nat :=
  let cutoff : Int := (now : Int) - (maxAgeMs : Int)
  let doomed : QueuedMessage → Bool := fun m =>
    decide ((m.status = Status.completed ∨ m.status = Status.failed) ∧
            (m.queuedAt : Int) < cutoff)
  (db.filter fun m => ! doomed m, db.countP doomed)

/-- The ids selected by `enforceMaxSize`'s delete subquery:
`SELECT id WHERE status = 'pending' ORDER BY queued_at ASC LIMIT toDelete`. -/
def victimIds (db : Store) (toDelete : Nat) : List Nat :=
  ((pendingSorted db).take toDelete).map fun m => m.id

/-- `MessageQueue.enforceMaxSize(maxSize)`: count the `pending` rows; if the
count exceeds `maxSize`, delete the `count - maxSize` oldest-`queued_at`
pending rows (by id, via the subquery above) and return `changes`, else
return 0. -/
def enforceMaxSize (db : Store) (maxSize : Nat) : Store × Nat :=
  let count := db.countP fun m => decide (m.status = Status.pending)
  if count ≤ maxSize then (db, 0)
  else
    let toDelete := count - maxSize
    let victims := victimIds db toDelete
    (db.filter fun m => ! victims.contains m.id,
     db.countP fun m => victims.contains m.id)

/-- Number of `pending` rows of a store. -/
def pendingCount (db : Store) : Nat :=
  db.countP fun m => decide (m.status = Status.pending)

end Feria

namespace Feria

/-- Connectivity state of `ConnectivityMonitor` (`online | offline | unknown`,
initialised to `unknown`). -/
inductive ConnState where
  | online
  | offline
  | unknown
deriving DecidableEq, Repr

/-- Outcome of one probe (`fetch(checkUrl, HEAD)` in `check()`):
the fetch resolved with `response.ok`, resolved without it, or threw
(connection error / abort timeout). -/
inductive ProbeOutcome where
  | success
  | httpFailure
  | fetchError
deriving DecidableEq, Repr

/-- How `check()` classifies a probe: `response.ok ? "online" : "offline"`,
with every thrown error swallowed into `"offline"`. -/
def classifyProbe : ProbeOutcome → ConnState
  | ProbeOutcome.success => ConnState.online
  | ProbeOutcome.httpFailure => ConnState.offline
  | ProbeOutcome.fetchError => ConnState.offline

/-- Events the monitor can emit: the generic `change(state)` event and the
state-named event (`emit("change", state); emit(state)`). -/
inductive ConnEvent where
  | change (s : ConnState)
  | named (s : ConnState)
deriving DecidableEq, Repr

/-- `ConnectivityMonitor.check()`: classify the probe, update the state, and
emit `change` plus the state-named event when the new state differs from the
previous one; returns the new state together with the emitted events. -/
def check (st : ConnState) (p : ProbeOutcome) : ConnState × List ConnEvent :=
  let s := classifyProbe p
  if st ≠ s then (s, [ConnEvent.change s, ConnEvent.named s]) else (s, [])

/-- A sequence of `check()` calls, accumulating all emitted events. -/
def checkSeq (st : ConnState) : List ProbeOutcome → ConnState × List ConnEvent
  | [] => (st, [])
  | p :: ps =>
    let r := check st p
    let rest := checkSeq r.1 ps
    (rest.1, r.2 ++ rest.2)

end Feria

namespace Feria

/-- Primitive classification of a JavaScript value as seen by the config
schema's `typeof` tests: a string, a number, a boolean, `null`, or anything
else (arrays, nested objects, ...). -/
inductive JsonPrim where
  | str (s : String)
  | num (n : Int)
  | boolean (b : Bool)
  | null
  | composite
deriving DecidableEq, Repr

/-- The raw value handed to `feriaModeConfigSchema.parse`: a plain object
(its fields) or anything else (non-object, array, `null`). -/
inductive ConfigInput where
  | obj (fields : List (String × JsonPrim))
  | nonObject
deriving DecidableEq, Repr

/-- Parsed configuration (type `FeriaModeConfig` in the config module). -/
structure FeriaModeConfig where
  dbPath : String
  connectivityCheckIntervalSec : Int
  connectivityCheckUrl : Option String
  maxQueueSize : Int
  maxQueueAgeHours : Int
  autoSync : Bool
  syncBatchSize : Int
deriving DecidableEq, Repr

/-- `ALLOWED_KEYS` of the config module. -/
def allowedKeys : List String :=
  ["dbPath", "connectivityCheckIntervalSec", "connectivityCheckUrl",
   "maxQueueSize", "maxQueueAgeHours", "autoSync", "syncBatchSize"]

/-- `DEFAULT_DB_PATH = join(homedir(), ".clawdbot", "feria-queue.db")`,
with the home directory as an explicit parameter. -/
def defaultDbPath (home : String) : String := home ++ "/.clawdbot/feria-queue.db"

/-- Property access `cfg[k]` on the config object (keys are unique in a
JavaScript object, so the first binding wins). -/
def lookupField (fields : List (String × JsonPrim)) (k : String) : Option JsonPrim :=
  (fields.find? fun kv => kv.1 == k).map fun kv => kv.2

/-- `feriaModeConfigSchema.parse`: non-objects collapse to `{}`;
`assertAllowedKeys` throws on any key outside `ALLOWED_KEYS`; otherwise each
field is taken from the input when it has the expected `typeof`, and the
documented default otherwise (`autoSync` is `cfg.autoSync !== false`). -/
def configParse (home : String) (value : ConfigInput) : Except String FeriaModeConfig :=
  let cfg := match value with
    | ConfigInput.obj fields => fields
    | ConfigInput.nonObject => []
  let unknownKeys := (cfg.map fun kv => kv.1).filter fun k => ! allowedKeys.contains k
  if unknownKeys.isEmpty then
    Except.ok
      { dbPath :=
          match lookupField cfg "dbPath" with
          | some (JsonPrim.str s) => s
          | _ => defaultDbPath home
        connectivityCheckIntervalSec :=
          match lookupField cfg "connectivityCheckIntervalSec" with
          | some (JsonPrim.num n) => n
          | _ => 30
        connectivityCheckUrl :=
          match lookupField cfg "connectivityCheckUrl" with
          | some (JsonPrim.str s) => some s
          | _ => none
        maxQueueSize :=
          match lookupField cfg "maxQueueSize" with
          | some (JsonPrim.num n) => n
          | _ => 1000
        maxQueueAgeHours :=
          match lookupField cfg "maxQueueAgeHours" with
          | some (JsonPrim.num n) => n
          | _ => 24
        autoSync := ! decide (lookupField cfg "autoSync" = some (JsonPrim.boolean false))
        syncBatchSize :=
          match lookupField cfg "syncBatchSize" with
          | some (JsonPrim.num n) => n
          | _ => 10 }
  else
    Except.error ("feria-mode config has unknown keys: " ++ String.intercalate ", " unknownKeys)

end Feria

namespace Feria

/-- Argument object of `api.injectMessage` (the re-injection interface). -/
structure InjectPayload where
  channel : String
  accountId : String
  senderId : String
  chatId : String
  body : String
  mediaPath : Option String
  metadata : List (String × MetaValue)
deriving DecidableEq, Repr

/-- JavaScript object-spread update `\x7b ...o, k: v \x7d`: if `k` is already a
key of `o` its value is replaced in place, otherwise the binding is appended. -/
def objSet (o : List (String × MetaValue)) (k : String) (v : MetaValue) :
    List (String × MetaValue) :=
  if o.any fun kv => kv.1 == k then
    o.map fun kv => if kv.1 == k then (k, v) else kv
  else o ++ [(k, v)]

/-- The payload `processQueue` builds for `api.injectMessage` (index.ts lines
94-108): routing fields copied verbatim and metadata spread with a `feriaMode`
replay-timestamp object. -/
def injectPayload (msg : QueuedMessage) (now : Nat) : InjectPayload :=
  { channel := msg.channel, accountId := msg.accountId, senderId := msg.senderId,
    chatId := msg.chatId, body := msg.body, mediaPath := msg.mediaPath,
    metadata := objSet msg.metadata "feriaMode" (MetaValue.feria msg.queuedAt now) }

/-- The external world as seen by one `processQueue` run: whether
`api.injectMessage` succeeds on a given payload, and what
`connectivity.isOnline()` answers after each batch. -/
structure SyncEnv where
  injectOk : InjectPayload → Bool
  onlineAfter : Nat → Bool

/-- The configuration fields `processQueue` reads. -/
structure SyncConfig where
  maxQueueAgeHours : Nat
  syncBatchSize : Nat

/-- The per-batch `for` loop of `processQueue`: for each message,
`markProcessing`, then `injectMessage`; `markCompleted` and `processed++` on
success, `markFailed` on error, and continue with the next message. -/
def processBatch (db : Store) (now : Nat) (inj : InjectPayload → Bool)
    (batch : List QueuedMessage) (processed : Nat) : Store × Nat :=
  match batch with
  | [] => (db, processed)
  | msg :: rest =>
    let db1 := markProcessing db now msg.id
    if inj (injectPayload msg now) then
      processBatch (markCompleted db1 msg.id) now inj rest (processed + 1)
    else
      processBatch (markFailed db1 msg.id) now inj rest processed

/-- The `while (true)` drain loop of `processQueue`: fetch a batch with
`getPending(syncBatchSize)`, stop when it is empty, process it, and stop after
a batch when connectivity has gone offline.  The loop is given explicit fuel;
`processQueue` passes `pendingCount db + 1`, which is enough because every
non-empty batch strictly decreases the number of pending rows
(`drainLoop_fuel_stable` below shows the fuel bound is never the reason the
loop stops). -/
def drainLoop (cfg : SyncConfig) (env : SyncEnv) (now : Nat) :
    Nat → Store → Nat → Nat → Store × Nat
  | 0, db, _, processed => (db, processed)
  | fuel + 1, db, batchIdx, processed =>
    let batch := getPending db cfg.syncBatchSize
    if batch.isEmpty then (db, processed)
    else
      let r := processBatch db now env.injectOk batch processed
      if env.onlineAfter batchIdx then
        drainLoop cfg env now fuel r.1 (batchIdx + 1) r.2
      else r

/-- `processQueue` (index.ts lines 63-133): an in-flight flag makes a second
invocation return 0 with no effect; otherwise `resetProcessing`, `cleanup`
with `maxQueueAgeHours` converted to milliseconds, then the batched drain
loop; the flag is cleared in the `finally` block.  Result:
`(processed, final store, final flag)`. -/
def processQueue (cfg : SyncConfig) (env : SyncEnv) (now : Nat)
    (isProcessing : Bool) (db : Store) : Nat × Store × Bool :=
  if isProcessing then (0, db, isProcessing)
  else
    let db1 := (resetProcessing db).1
    let db2 := (cleanup db1 now (cfg.maxQueueAgeHours * 60 * 60 * 1000)).1
    let r := drainLoop cfg env now (pendingCount db2 + 1) db2 0 0
    (r.2, r.1, false)

/-- The combined per-row effect on one stored row of `markProcessing`
followed by `markCompleted` (on re-injection success) or `markFailed` (on
re-injection failure) for a single batch message, used to characterise
`processBatch` as a row-wise map. -/
def applyMsg (inj : InjectPayload → Bool) (now : Nat) (msg m : QueuedMessage) :
    QueuedMessage :=
  if m.id = msg.id then
    if inj (injectPayload msg now) then
      { m with status := Status.completed, attempts := m.attempts + 1,
               lastAttemptAt := some now }
    else
      { m with status := Status.failed, attempts := m.attempts + 1,
               lastAttemptAt := some now }
  else m

/-- The per-row effect of processing a whole batch in order. -/
def batchApply (inj : InjectPayload → Bool) (now : Nat) (batch : List QueuedMessage)
    (m : QueuedMessage) : QueuedMessage :=
  batch.foldl (fun acc msg => applyMsg inj now msg acc) m

/-- A sample pending message used for concrete witnesses. -/
def exBase : QueuedMessage :=
  { id := 0, channel := "whatsapp", accountId := "acct", senderId := "sender",
    chatId := "chat", body := "hello", mediaPath := none, metadata := [],
    queuedAt := 1, attempts := 0, lastAttemptAt := none, status := Status.pending }

/-- A sample completed message. -/
def exCompleted : QueuedMessage := { exBase with id := 1, status := Status.completed }

/-- A sample failed message. -/
def exFailed : QueuedMessage := { exBase with id := 2, status := Status.failed }

/-- A sample message whose caller-supplied metadata already uses the key
`feriaMode`, plus an ordinary key. -/
def exMsgMeta : QueuedMessage :=
  { exBase with
    id := 3
    metadata := [("feriaMode", MetaValue.str "mine"), ("src", MetaValue.str "user")] }

/-- A sample sync environment in which every re-injection fails and
connectivity stays online. -/
def exEnvFail : SyncEnv := { injectOk := fun _ => false, onlineAfter := fun _ => true }

/-- The default sync configuration (24 h retention, batches of 10). -/
def exCfg : SyncConfig := { maxQueueAgeHours := 24, syncBatchSize := 10 }

end Feria

namespace Feria

/-! ### General lemmas about the queue operations -/

theorem length_filter_not_add_countP (l : List QueuedMessage) (p : QueuedMessage → Bool) :
    (l.filter fun a => ! p a).length + l.countP p = l.length := by
  induction l with
  | nil => rfl
  | cons a l ih =>
    by_cases h : p a <;> simp [List.countP_cons, h] <;> omega

/-! ### C1 -/

/-- C1 (claim as stated is false): `markProcessing` on a message whose status
is `completed` still rewrites it to `processing` — the UPDATE has no
`status = 'pending'` guard, so a terminal status is not immune to the mark
operations. -/
theorem feria_C1_counterexample :
    exCompleted.status = Status.completed ∧
    (markProcessing [exCompleted] 5 exCompleted.id).map (fun m => m.status) =
      [Status.processing] := by
  decide

/-- C1 (amended): `markProcessing(id)` updates every row with the given id —
setting `status = processing`, incrementing `attempts` and setting
`lastAttemptAt` — unconditionally on the row's current status (there is no
pending-only guard); rows with a different id are untouched by
`markProcessing`, `markCompleted` and `markFailed`; `resetProcessing` never
changes a `completed` or `failed` row; and none of these operations deletes a
row. -/
theorem feria_C1_amended (db : Store) (now target : Nat) :
    (∀ m ∈ db, m.id = target →
      ({ m with status := Status.processing, attempts := m.attempts + 1,
                lastAttemptAt := some now } : QueuedMessage) ∈ markProcessing db now target)
    ∧ (∀ m ∈ db, m.id ≠ target →
        m ∈ markProcessing db now target ∧ m ∈ markCompleted db target ∧
        m ∈ markFailed db target)
    ∧ (∀ m ∈ db, m.status = Status.completed ∨ m.status = Status.failed →
        m ∈ (resetProcessing db).1)
    ∧ (markProcessing db now target).length = db.length
    ∧ (resetProcessing db).1.length = db.length := by
  refine ⟨?_, ?_, ?_, ?_, ?_⟩
  · intro m hm h
    unfold markProcessing
    exact List.mem_map.mpr ⟨m, hm, by simp [h]⟩
  · intro m hm h
    refine ⟨?_, ?_, ?_⟩
    · unfold markProcessing
      exact List.mem_map.mpr ⟨m, hm, by simp [h]⟩
    · unfold markCompleted
      exact List.mem_map.mpr ⟨m, hm, by simp [h]⟩
    · unfold markFailed
      exact List.mem_map.mpr ⟨m, hm, by simp [h]⟩
  · intro m hm h
    have hne : ¬ m.status = Status.processing := by
      rcases h with h | h <;> rw [h] <;> intro hc <;> cases hc
    unfold resetProcessing
    exact List.mem_map.mpr ⟨m, hm, by simp [hne]⟩
  · exact List.length_map db _
  · exact List.length_map db _

/-- Witness for `feria_C1_amended` at a concrete pending message. -/
theorem feria_C1_witness :
    ({ exBase with status := Status.processing, attempts := exBase.attempts + 1,
                   lastAttemptAt := some 5 } : QueuedMessage) ∈
      markProcessing [exBase] 5 exBase.id :=
  (feria_C1_amended [exBase] 5 exBase.id).1 exBase (List.mem_singleton.mpr rfl) rfl

/-! ### C2 -/

/-- C2 (claim as stated is false): a caller-supplied metadata entry under the
key `feriaMode` is replaced by the sync engine's replay-timestamp object, so
the payload does not contain every caller-supplied key-value pair. -/
theorem feria_C2_counterexample :
    ("feriaMode", MetaValue.str "mine") ∈ exMsgMeta.metadata ∧
    ("feriaMode", MetaValue.str "mine") ∉ (injectPayload exMsgMeta 9).metadata := by
  decide

/-- C2 (amended): the metadata passed to the re-injection interface contains
every caller-supplied key-value pair whose key is not `feriaMode`, and always
contains the key `feriaMode` mapped to the replay timestamps; a
caller-supplied value under `feriaMode` is overwritten. -/
theorem feria_C2_amended (msg : QueuedMessage) (now : Nat) (k : String) (v : MetaValue)
    (hk : k ≠ "feriaMode") (hmem : (k, v) ∈ msg.metadata) :
    (k, v) ∈ (injectPayload msg now).metadata ∧
    ("feriaMode", MetaValue.feria msg.queuedAt now) ∈ (injectPayload msg now).metadata := by
  unfold injectPayload objSet
  by_cases h : msg.metadata.any fun kv => kv.1 == "feriaMode"
  · simp only [h, if_true]
    constructor
    · exact List.mem_map.mpr ⟨(k, v), hmem, by simp [hk]⟩
    · rcases List.any_eq_true.mp h with ⟨kv, hkv, hfk⟩
      exact List.mem_map.mpr ⟨kv, hkv, by simp [hfk]⟩
  · simp only [h, if_false]
    exact ⟨List.mem_append_left _ hmem,
           List.mem_append_right _ (List.mem_singleton.mpr rfl)⟩

/-- Witness for `feria_C2_amended`: an ordinary caller key survives and the
replay timestamps are present. -/
theorem feria_C2_witness :
    ("src", MetaValue.str "user") ∈ (injectPayload exMsgMeta 9).metadata ∧
    ("feriaMode", MetaValue.feria exMsgMeta.queuedAt 9) ∈ (injectPayload exMsgMeta 9).metadata :=
  feria_C2_amended exMsgMeta 9 "src" (MetaValue.str "user") (by decide) (by decide)

/-! ### C3 -/

/-- C3: `processQueue` is guarded by the in-flight flag: when the flag is set,
a second invocation returns 0, leaves the store untouched and the flag set;
and a run that does start always finishes with the flag cleared. -/
theorem feria_C3 (cfg : SyncConfig) (env : SyncEnv) (now : Nat) (db : Store) :
    processQueue cfg env now true db = (0, db, true) ∧
    (processQueue cfg env now false db).2.2 = false := by
  constructor
  · rfl
  · simp [processQueue]

/-! ### C10 -/

/-- C10: from the initial state `unknown`, the first completed `check()`
always emits the `change` event and the state-named event, whatever the probe
outcome, because a probe never classifies as `unknown`. -/
theorem feria_C10 (p : ProbeOutcome) :
    (check ConnState.unknown p).2 =
      [ConnEvent.change (classifyProbe p), ConnEvent.named (classifyProbe p)] ∧
    classifyProbe p ≠ ConnState.unknown := by
  cases p <;> decide

end Feria

namespace Feria

/-! ### C5 -/

/-- C5: `cleanup(maxAgeMs)` removes exactly the rows whose status is terminal
(`completed` or `failed`) and whose `queuedAt` is strictly older than
`now - maxAgeMs`; every other row — in particular every `pending` or
`processing` row, regardless of age — survives; the returned count plus the
surviving rows account for the whole store. -/
theorem feria_C5 (db : Store) (now maxAgeMs : Nat) :
    (∀ m ∈ db,
      ((m.status = Status.completed ∨ m.status = Status.failed) ∧
        (m.queuedAt : Int) < (now : Int) - (maxAgeMs : Int)) →
      m ∉ (cleanup db now maxAgeMs).1)
    ∧ (∀ m ∈ db,
        ¬((m.status = Status.completed ∨ m.status = Status.failed) ∧
          (m.queuedAt : Int) < (now : Int) - (maxAgeMs : Int)) →
        m ∈ (cleanup db now maxAgeMs).1)
    ∧ (∀ m ∈ db, m.status = Status.pending ∨ m.status = Status.processing →
        m ∈ (cleanup db now maxAgeMs).1)
    ∧ (cleanup db now maxAgeMs).1.length + (cleanup db now maxAgeMs).2 = db.length := by
  refine ⟨?_, ?_, ?_, ?_⟩
  · intro m _ hdel hmem
    have h2 := (List.mem_filter.mp hmem).2
    simp only [Bool.not_eq_true', decide_eq_false_iff_not] at h2
    exact h2 hdel
  · intro m hm hkeep
    refine List.mem_filter.mpr ⟨hm, ?_⟩
    simp only [Bool.not_eq_true', decide_eq_false_iff_not]
    exact hkeep
  · intro m hm hst
    refine List.mem_filter.mpr ⟨hm, ?_⟩
    simp only [Bool.not_eq_true', decide_eq_false_iff_not]
    rintro ⟨h1, -⟩
    rcases hst with h | h <;> rcases h1 with h1 | h1 <;> rw [h] at h1 <;> cases h1
  · exact length_filter_not_add_countP db _

/-- Witness for `feria_C5`: a fresh pending message survives a cleanup even
with retention 0. -/
theorem feria_C5_witness : exBase ∈ (cleanup [exBase] 100 0).1 :=
  (feria_C5 [exBase] 100 0).2.2.1 exBase (List.mem_singleton.mpr rfl) (Or.inl rfl)

/-! ### C7 -/

theorem filter_queuedAt_insertionSort (l : List QueuedMessage) (t : Nat) :
    ((l.insertionSort leQueuedAt).filter fun m => decide (m.queuedAt = t)) =
      l.filter fun m => decide (m.queuedAt = t) := by
  have hpair : (l.filter fun m => decide (m.queuedAt = t)).Pairwise leQueuedAt := by
    apply List.pairwise_of_forall_mem_list
    intro a ha b hb
    have ha2 := (List.mem_filter.mp ha).2
    have hb2 := (List.mem_filter.mp hb).2
    simp only [decide_eq_true_eq] at ha2 hb2
    show a.queuedAt ≤ b.queuedAt
    rw [ha2, hb2]
  have hsub : List.Sublist (l.filter fun m => decide (m.queuedAt = t))
      (l.insertionSort leQueuedAt) :=
    List.sublist_insertionSort hpair (List.filter_sublist l)
  have hsub2 := hsub.filter fun m => decide (m.queuedAt = t)
  rw [List.filter_eq_self.mpr (fun a ha => (List.mem_filter.mp ha).2)] at hsub2
  have hlen : ((l.insertionSort leQueuedAt).filter fun m => decide (m.queuedAt = t)).length =
      (l.filter fun m => decide (m.queuedAt = t)).length :=
    ((List.perm_insertionSort leQueuedAt l).filter _).length_eq
  exact (hsub2.eq_of_length hlen.symm).symm

/-- C7: `getPending(limit)` returns at most `limit` messages, all `pending`,
in nondecreasing `queuedAt` order, and messages with equal `queuedAt` appear
in insertion order (the returned rows of any fixed timestamp form a sublist
of the store's insertion order) — FIFO. -/
theorem feria_C7 (db : Store) (limit : Nat) :
    (getPending db limit).length ≤ limit
    ∧ (∀ m ∈ getPending db limit, m.status = Status.pending)
    ∧ List.Sorted leQueuedAt (getPending db limit)
    ∧ (∀ t : Nat,
        List.Sublist ((getPending db limit).filter fun m => decide (m.queuedAt = t)) db) := by
  refine ⟨?_, ?_, ?_, ?_⟩
  · exact List.length_take_le limit
      ((db.filter fun m => decide (m.status = Status.pending)).insertionSort leQueuedAt)
  · intro m hm
    have h1 : m ∈ (db.filter fun m => decide (m.status = Status.pending)).insertionSort
        leQueuedAt := List.mem_of_mem_take hm
    rw [List.mem_insertionSort] at h1
    have := (List.mem_filter.mp h1).2
    simpa using this
  · exact List.Pairwise.sublist
      (List.take_sublist _ _)
      (List.sorted_insertionSort leQueuedAt
        (db.filter fun m => decide (m.status = Status.pending)))
  · intro t
    have h1 : List.Sublist ((getPending db limit).filter fun m => decide (m.queuedAt = t))
        (((db.filter fun m => decide (m.status = Status.pending)).insertionSort
            leQueuedAt).filter fun m => decide (m.queuedAt = t)) :=
      (List.take_sublist _ _).filter _
    rw [filter_queuedAt_insertionSort] at h1
    exact h1.trans ((List.filter_sublist _).trans (List.filter_sublist _))

/-- Witness for `feria_C7` at a concrete two-element store. -/
theorem feria_C7_witness : exBase.status = Status.pending :=
  (feria_C7 [exCompleted, exBase] 5).2.1 exBase (by decide)

/-! ### C8 -/

theorem check_eq (st : ConnState) (p : ProbeOutcome) :
    check st p =
      if st = classifyProbe p then (classifyProbe p, [])
      else (classifyProbe p,
            [ConnEvent.change (classifyProbe p), ConnEvent.named (classifyProbe p)]) := by
  unfold check
  by_cases h : st = classifyProbe p <;> simp [h]

theorem checkSeq_const (c : ConnState) (ps : List ProbeOutcome)
    (h : ∀ q ∈ ps, classifyProbe q = c) : checkSeq c ps = (c, []) := by
  induction ps with
  | nil => rfl
  | cons q ps ih =>
    have hq := h q (List.mem_cons_self q ps)
    have hrest := ih fun r hr => h r (List.mem_cons_of_mem q hr)
    simp [checkSeq, check, hq, hrest]

/-- C8: one `check()` emits no event when the classified probe outcome equals
the current state, and exactly the `change` plus state-named pair when it
differs; hence a run of identically-classified probes emits only what the
first probe emits — repeated identical outcomes produce zero further
notifications. -/
theorem feria_C8 (st : ConnState) (p : ProbeOutcome) (ps : List ProbeOutcome)
    (h : ∀ q ∈ ps, classifyProbe q = classifyProbe p) :
    ((check st p).1 = st → (check st p).2 = [])
    ∧ ((check st p).1 ≠ st →
        (check st p).2 =
          [ConnEvent.change (classifyProbe p), ConnEvent.named (classifyProbe p)])
    ∧ (checkSeq st (p :: ps)).2 = (check st p).2 := by
  rw [check_eq]
  by_cases heq : st = classifyProbe p
  · refine ⟨fun _ => by simp [heq], fun hne => absurd (by simp [heq]) hne, ?_⟩
    simp [checkSeq, check_eq, heq, checkSeq_const (classifyProbe p) ps h]
  · refine ⟨fun hst => absurd (by simpa [heq] using hst.symm) heq, fun _ => by simp [heq], ?_⟩
    simp [checkSeq, check_eq, heq, checkSeq_const (classifyProbe p) ps h]

/-- Witness for `feria_C8`: two consecutive successful probes from `unknown`
emit only the first transition's events. -/
theorem feria_C8_witness :
    (checkSeq ConnState.unknown [ProbeOutcome.success, ProbeOutcome.success]).2 =
      (check ConnState.unknown ProbeOutcome.success).2 :=
  (feria_C8 ConnState.unknown ProbeOutcome.success [ProbeOutcome.success]
    (by decide)).2.2

end Feria

namespace Feria

/-! ### C9 -/

/-- C9: configuration parsing fails with a hard error whenever the input
object has a key outside the closed allowed set, and succeeds for any input
with only allowed keys, filling absent fields with the documented defaults
(interval 30, maxQueueSize 1000, maxQueueAgeHours 24, autoSync true,
syncBatchSize 10). -/
theorem feria_C9 (home : String) (fields : List (String × JsonPrim)) :
    ((∃ k ∈ fields.map (fun kv => kv.1), k ∉ allowedKeys) →
      ∃ e, configParse home (ConfigInput.obj fields) = Except.error e)
    ∧ ((∀ k ∈ fields.map (fun kv => kv.1), k ∈ allowedKeys) →
      ∃ cfg, configParse home (ConfigInput.obj fields) = Except.ok cfg
        ∧ (lookupField fields "connectivityCheckIntervalSec" = none →
            cfg.connectivityCheckIntervalSec = 30)
        ∧ (lookupField fields "maxQueueSize" = none → cfg.maxQueueSize = 1000)
        ∧ (lookupField fields "maxQueueAgeHours" = none → cfg.maxQueueAgeHours = 24)
        ∧ (lookupField fields "autoSync" = none → cfg.autoSync = true)
        ∧ (lookupField fields "syncBatchSize" = none → cfg.syncBatchSize = 10)) := by
  constructor
  · rintro ⟨k, hk, hnot⟩
    have hmem : k ∈ (fields.map (fun kv => kv.1)).filter
        (fun k => ! allowedKeys.contains k) :=
      List.mem_filter.mpr ⟨hk, by simpa using hnot⟩
    have hne : ((fields.map (fun kv => kv.1)).filter
        (fun k => ! allowedKeys.contains k)).isEmpty = false :=
      List.isEmpty_eq_false.mpr (List.ne_nil_of_mem hmem)
    simp only [configParse, hne, Bool.false_eq_true, if_false]
    exact ⟨_, rfl⟩
  · intro hall
    have hnil : ((fields.map (fun kv => kv.1)).filter
        (fun k => ! allowedKeys.contains k)) = [] := by
      refine List.filter_eq_nil_iff.mpr ?_
      intro a ha
      simpa using hall a ha
    simp only [configParse, hnil, List.isEmpty_nil, if_true]
    refine ⟨_, rfl, ?_, ?_, ?_, ?_, ?_⟩ <;> intro habs <;> simp [habs]

/-- Witness for `feria_C9`: the empty configuration object parses with all
defaults. -/
theorem feria_C9_witness :
    ∃ cfg, configParse "/home/u" (ConfigInput.obj []) = Except.ok cfg
      ∧ (lookupField [] "connectivityCheckIntervalSec" = none →
          cfg.connectivityCheckIntervalSec = 30)
      ∧ (lookupField [] "maxQueueSize" = none → cfg.maxQueueSize = 1000)
      ∧ (lookupField [] "maxQueueAgeHours" = none → cfg.maxQueueAgeHours = 24)
      ∧ (lookupField [] "autoSync" = none → cfg.autoSync = true)
      ∧ (lookupField [] "syncBatchSize" = none → cfg.syncBatchSize = 10) :=
  (feria_C9 "/home/u" []).2 (by decide)

end Feria

namespace Feria

/-! ### C6 -/

theorem length_pendingSorted (db : Store) :
    (pendingSorted db).length = pendingCount db := by
  simp [pendingSorted, pendingCount, List.length_insertionSort,
        List.countP_eq_length_filter]

theorem mem_pendingSorted {db : Store} {m : QueuedMessage} :
    m ∈ pendingSorted db ↔ m ∈ db ∧ m.status = Status.pending := by
  simp [pendingSorted, List.mem_insertionSort, List.mem_filter]

theorem pendingSorted_ids_nodup {db : Store}
    (hnd : (db.map (fun m => m.id)).Nodup) :
    ((pendingSorted db).map (fun m => m.id)).Nodup := by
  have h1 : ((db.filter fun m => decide (m.status = Status.pending)).map
      (fun m => m.id)).Nodup :=
    ((List.filter_sublist db).map (fun m => m.id)).nodup hnd
  have h2 : List.Perm ((pendingSorted db).map (fun m => m.id))
      ((db.filter fun m => decide (m.status = Status.pending)).map (fun m => m.id)) :=
    (List.perm_insertionSort leQueuedAt _).map _
  exact h2.symm.nodup h1

theorem victimIds_nodup {db : Store} (toDel : Nat)
    (hnd : (db.map (fun m => m.id)).Nodup) : (victimIds db toDel).Nodup := by
  have hsub : List.Sublist (victimIds db toDel)
      ((pendingSorted db).map (fun m => m.id)) :=
    (List.take_sublist toDel (pendingSorted db)).map _
  exact hsub.nodup (pendingSorted_ids_nodup hnd)

theorem mem_victimIds {db : Store} {toDel : Nat} {x : Nat}
    (hx : x ∈ victimIds db toDel) :
    ∃ v, v ∈ (pendingSorted db).take toDel ∧ v ∈ db ∧
      v.status = Status.pending ∧ v.id = x := by
  rcases List.mem_map.mp hx with ⟨v, hv, rfl⟩
  have hv2 := mem_pendingSorted.mp (List.mem_of_mem_take hv)
  exact ⟨v, hv, hv2.1, hv2.2, rfl⟩

theorem countP_contains_of_nodup {L : List Nat} (hL : L.Nodup)
    {v : List Nat} (hv : v.Nodup) (hsub : ∀ x ∈ v, x ∈ L) :
    L.countP (fun x => v.contains x) = v.length := by
  rw [List.countP_eq_length_filter]
  have hnd : (L.filter (fun x => v.contains x)).Nodup := hL.filter _
  have hperm : List.Perm (L.filter (fun x => v.contains x)) v := by
    rw [List.perm_ext_iff_of_nodup hnd hv]
    intro a
    simp only [List.mem_filter]
    constructor
    · rintro ⟨-, ha⟩
      simpa using ha
    · intro ha
      exact ⟨hsub a ha, by simpa using ha⟩
  exact hperm.length_eq

theorem countP_and_split (l : List QueuedMessage) (p q : QueuedMessage → Bool) :
    l.countP p =
      l.countP (fun m => p m && q m) + l.countP (fun m => p m && ! q m) := by
  induction l with
  | nil => rfl
  | cons a l ih =>
    by_cases hp : p a <;> by_cases hq : q a <;>
      simp [List.countP_cons, hp, hq, ih] <;> omega

/-- C6: when the store holds `N + k` pending messages (`k > 0`) with unique
ids, `enforceMaxSize N` deletes exactly `k` messages, all pending, each no
newer than any surviving pending message; exactly `N` pending messages
remain, non-pending rows are untouched, and the deleted count is returned;
when the pending count is at most `N` the call returns `(db, 0)`. -/
theorem feria_C6 (db : Store) (N : Nat)
    (hnd : (db.map (fun m => m.id)).Nodup) :
    (pendingCount db ≤ N → enforceMaxSize db N = (db, 0))
    ∧ (∀ k, pendingCount db = N + k → 0 < k →
        (enforceMaxSize db N).2 = k
        ∧ pendingCount (enforceMaxSize db N).1 = N
        ∧ (∀ m ∈ db, m.status ≠ Status.pending → m ∈ (enforceMaxSize db N).1)
        ∧ (∀ d ∈ db, d ∉ (enforceMaxSize db N).1 →
            d.status = Status.pending ∧
            ∀ s ∈ (enforceMaxSize db N).1, s.status = Status.pending →
              d.queuedAt ≤ s.queuedAt)) := by
  have hinj : ∀ x ∈ db, ∀ y ∈ db, x.id = y.id → x = y :=
    List.inj_on_of_nodup_map hnd
  constructor
  · intro hle
    have hle2 : db.countP (fun m => decide (m.status = Status.pending)) ≤ N := hle
    simp only [enforceMaxSize]
    rw [if_pos hle2]
  · intro k hcount hk
    have hcount2 : db.countP (fun m => decide (m.status = Status.pending)) = N + k :=
      hcount
    have hgt : ¬ db.countP (fun m => decide (m.status = Status.pending)) ≤ N := by
      omega
    have htd : db.countP (fun m => decide (m.status = Status.pending)) - N = k := by
      omega
    have heq : enforceMaxSize db N =
        (db.filter fun m => ! (victimIds db k).contains m.id,
         db.countP fun m => (victimIds db k).contains m.id) := by
      simp only [enforceMaxSize]
      rw [if_neg hgt, htd]
    -- every row whose id is a victim id is itself a pending row of the take-prefix
    have hvic : ∀ m ∈ db, ((victimIds db k).contains m.id) = true →
        m ∈ (pendingSorted db).take k ∧ m.status = Status.pending := by
      intro m hm hc
      have hmem : m.id ∈ victimIds db k := by simpa using hc
      rcases mem_victimIds hmem with ⟨v, hvtake, hvdb, hvpend, hvid⟩
      have : v = m := hinj v hvdb m hm hvid
      subst this
      exact ⟨hvtake, hvpend⟩
    -- the victim id list has length exactly k
    have hvlen : (victimIds db k).length = k := by
      have h1 : (pendingSorted db).length = N + k := by
        rw [length_pendingSorted]
        exact hcount
      simp [victimIds, List.length_take, h1]
    -- the deleted count is exactly k
    have hcountdel : (db.countP fun m => (victimIds db k).contains m.id) = k := by
      have h1 : (db.countP fun m => (victimIds db k).contains m.id) =
          ((db.map (fun m => m.id)).countP fun x => (victimIds db k).contains x) := by
        rw [List.countP_map]
        rfl
      rw [h1, countP_contains_of_nodup hnd (victimIds_nodup k hnd)]
      · exact hvlen
      · intro x hx
        rcases mem_victimIds hx with ⟨v, -, hvdb, -, hvid⟩
        rw [← hvid]
        exact List.mem_map_of_mem _ hvdb
    refine ⟨?_, ?_, ?_, ?_⟩
    · rw [heq]
      exact hcountdel
    · rw [heq]
      have h1 : pendingCount (db.filter fun m => ! (victimIds db k).contains m.id) =
          db.countP (fun m =>
            decide (m.status = Status.pending) && ! (victimIds db k).contains m.id) := by
        simp [pendingCount, List.countP_filter]
      have h2 : db.countP (fun m =>
          decide (m.status = Status.pending) && (victimIds db k).contains m.id) =
          db.countP (fun m => (victimIds db k).contains m.id) := by
        apply List.countP_congr
        intro m hm
        by_cases hc : ((victimIds db k).contains m.id) = true
        · simp [hc, (hvic m hm hc).2]
        · have hc2 : m.id ∉ victimIds db k := by simpa using hc
          simp [hc2]
      have h3 := countP_and_split db
        (fun m => decide (m.status = Status.pending))
        (fun m => (victimIds db k).contains m.id)
      rw [h1]
      omega
    · intro m hm hst
      rw [heq]
      refine List.mem_filter.mpr ⟨hm, ?_⟩
      by_cases hc : ((victimIds db k).contains m.id) = true
      · exact absurd (hvic m hm hc).2 hst
      · have hc2 : m.id ∉ victimIds db k := by simpa using hc
        simp [hc2]
    · intro d hd hdnot
      rw [heq] at hdnot
      have hc : ((victimIds db k).contains d.id) = true := by
        by_contra hc
        have hc2 : d.id ∉ victimIds db k := by simpa using hc
        exact hdnot (List.mem_filter.mpr ⟨hd, by simp [hc2]⟩)
      rcases hvic d hd hc with ⟨hdtake, hdpend⟩
      refine ⟨hdpend, ?_⟩
      intro s hs hspend
      rw [heq] at hs
      have hs1 := List.mem_filter.mp hs
      have hsdb := hs1.1
      have hsnot : ¬ s.id ∈ victimIds db k := by
        have := hs1.2
        simp at this
        exact this
      have hss : s ∈ pendingSorted db := mem_pendingSorted.mpr ⟨hsdb, hspend⟩
      have hsdrop : s ∈ (pendingSorted db).drop k := by
        rcases List.mem_append.mp
            (by rw [List.take_append_drop k (pendingSorted db)]; exact hss) with h | h
        · exact absurd (List.mem_map_of_mem _ h) hsnot
        · exact h
      exact List.Sorted.rel_of_mem_take_of_mem_drop
        (List.sorted_insertionSort leQueuedAt _) hdtake hsdrop

/-- Witness for `feria_C6`: a two-message store with `maxSize = 1` drops the
older pending message and keeps one pending. -/
theorem feria_C6_witness :
    (enforceMaxSize [exBase, { exBase with id := 7, queuedAt := 2 }] 1).2 = 1 :=
  ((feria_C6 [exBase, { exBase with id := 7, queuedAt := 2 }] 1 (by decide)).2
    1 (by decide) (by decide)).1

end Feria

namespace Feria

/-! ### C4: the drain loop as a row-wise map -/

theorem markCompleted_markProcessing (db : Store) (now : Nat)
    (inj : InjectPayload → Bool) (msg : QueuedMessage)
    (hinj : inj (injectPayload msg now) = true) :
    markCompleted (markProcessing db now msg.id) msg.id =
      db.map (applyMsg inj now msg) := by
  unfold markProcessing markCompleted
  rw [List.map_map]
  refine congrArg (fun f => db.map f) (funext fun m => ?_)
  by_cases hid : m.id = msg.id
  · simp [Function.comp, applyMsg, hid, hinj]
  · simp [Function.comp, applyMsg, hid]

theorem markFailed_markProcessing (db : Store) (now : Nat)
    (inj : InjectPayload → Bool) (msg : QueuedMessage)
    (hinj : ¬ inj (injectPayload msg now) = true) :
    markFailed (markProcessing db now msg.id) msg.id =
      db.map (applyMsg inj now msg) := by
  unfold markProcessing markFailed
  rw [List.map_map]
  refine congrArg (fun f => db.map f) (funext fun m => ?_)
  by_cases hid : m.id = msg.id
  · simp [Function.comp, applyMsg, hid, hinj]
  · simp [Function.comp, applyMsg, hid]

theorem processBatch_eq (now : Nat) (inj : InjectPayload → Bool) :
    ∀ (batch : List QueuedMessage) (db : Store) (p : Nat),
    processBatch db now inj batch p =
      (db.map (batchApply inj now batch),
       p + batch.countP (fun msg => inj (injectPayload msg now))) := by
  intro batch
  induction batch with
  | nil =>
    intro db p
    have h : batchApply inj now [] = fun m : QueuedMessage => m := funext fun m => rfl
    simp [processBatch, h]
  | cons msg rest ih =>
    intro db p
    by_cases hinj : inj (injectPayload msg now) = true
    · have hstep : processBatch db now inj (msg :: rest) p =
          processBatch (markCompleted (markProcessing db now msg.id) msg.id)
            now inj rest (p + 1) := by
        simp [processBatch, hinj]
      rw [hstep, ih, markCompleted_markProcessing db now inj msg hinj, List.map_map]
      refine Prod.ext ?_ ?_
      · exact congrArg (fun F => db.map F) (funext fun m => rfl)
      · simp [List.countP_cons, hinj]
        omega
    · have hstep : processBatch db now inj (msg :: rest) p =
          processBatch (markFailed (markProcessing db now msg.id) msg.id)
            now inj rest p := by
        simp [processBatch, hinj]
      rw [hstep, ih, markFailed_markProcessing db now inj msg hinj, List.map_map]
      refine Prod.ext ?_ ?_
      · exact congrArg (fun F => db.map F) (funext fun m => rfl)
      · simp [List.countP_cons, hinj]

theorem applyMsg_id (inj : InjectPayload → Bool) (now : Nat) (msg m : QueuedMessage) :
    (applyMsg inj now msg m).id = m.id := by
  unfold applyMsg
  by_cases hid : m.id = msg.id <;> by_cases hinj : inj (injectPayload msg now) = true <;>
    simp [hid, hinj]

theorem batchApply_id (inj : InjectPayload → Bool) (now : Nat) :
    ∀ (batch : List QueuedMessage) (m : QueuedMessage),
    (batchApply inj now batch m).id = m.id := by
  intro batch
  induction batch with
  | nil => intro m; rfl
  | cons msg rest ih =>
    intro m
    rw [show batchApply inj now (msg :: rest) m =
          batchApply inj now rest (applyMsg inj now msg m) from rfl,
        ih, applyMsg_id]

theorem applyMsg_pending {inj : InjectPayload → Bool} {now : Nat}
    {msg m : QueuedMessage}
    (h : (applyMsg inj now msg m).status = Status.pending) :
    applyMsg inj now msg m = m := by
  unfold applyMsg at h ⊢
  by_cases hid : m.id = msg.id
  · by_cases hinj : inj (injectPayload msg now) = true <;>
      simp [hid, hinj] at h
  · simp [hid]

theorem applyMsg_matched_status {inj : InjectPayload → Bool} {now : Nat}
    {msg m : QueuedMessage} (hid : m.id = msg.id) :
    (applyMsg inj now msg m).status ≠ Status.pending := by
  unfold applyMsg
  by_cases hinj : inj (injectPayload msg now) = true <;> simp [hid, hinj]

theorem batchApply_pending {inj : InjectPayload → Bool} {now : Nat} :
    ∀ {batch : List QueuedMessage} {m : QueuedMessage},
    (batchApply inj now batch m).status = Status.pending →
    batchApply inj now batch m = m := by
  intro batch
  induction batch with
  | nil => intro m _; rfl
  | cons msg rest ih =>
    intro m h
    rw [show batchApply inj now (msg :: rest) m =
          batchApply inj now rest (applyMsg inj now msg m) from rfl] at h ⊢
    have h1 := ih h
    rw [h1] at h ⊢
    exact applyMsg_pending h

theorem batchApply_not_mem {inj : InjectPayload → Bool} {now : Nat} :
    ∀ {batch : List QueuedMessage} {m : QueuedMessage},
    m.id ∉ batch.map (fun b => b.id) → batchApply inj now batch m = m := by
  intro batch
  induction batch with
  | nil => intro m _; rfl
  | cons msg rest ih =>
    intro m h
    rw [List.map_cons, List.mem_cons] at h
    push_neg at h
    rw [show batchApply inj now (msg :: rest) m =
          batchApply inj now rest (applyMsg inj now msg m) from rfl]
    have h1 : applyMsg inj now msg m = m := by
      unfold applyMsg
      rw [if_neg h.1]
    rw [h1]
    exact ih h.2

theorem batchApply_mem_not_pending {inj : InjectPayload → Bool} {now : Nat} :
    ∀ {batch : List QueuedMessage} {msg m : QueuedMessage},
    msg ∈ batch → m.id = msg.id →
    (batchApply inj now batch m).status ≠ Status.pending := by
  intro batch
  induction batch with
  | nil => intro msg m h; cases h
  | cons a rest ih =>
    intro msg m hmem hid
    rw [show batchApply inj now (a :: rest) m =
          batchApply inj now rest (applyMsg inj now a m) from rfl]
    rcases List.mem_cons.mp hmem with rfl | htail
    · intro hcontra
      have h1 := batchApply_pending hcontra
      rw [h1] at hcontra
      exact applyMsg_matched_status hid hcontra
    · exact ih htail (by rw [applyMsg_id]; exact hid)

end Feria

namespace Feria

/-! ### C4: pending-count decrease and fuel sufficiency of the drain loop -/

theorem pendingCount_map_le (db : Store) (F : QueuedMessage → QueuedMessage)
    (hF : ∀ m, (F m).status = Status.pending → F m = m) :
    pendingCount (db.map F) ≤ pendingCount db := by
  induction db with
  | nil => exact Nat.le_refl _
  | cons a l ih =>
    simp only [List.map_cons, pendingCount, List.countP_cons] at ih ⊢
    by_cases hFa : (F a).status = Status.pending
    · have ha : a.status = Status.pending := by
        rw [← hF a hFa]
        exact hFa
      rw [if_pos (by simp [hFa]), if_pos (by simp [ha])]
      omega
    · rw [if_neg (by simp [hFa])]
      by_cases ha : a.status = Status.pending
      · rw [if_pos (by simp [ha])]
        omega
      · rw [if_neg (by simp [ha])]
        omega

theorem pendingCount_map_lt (db : Store) (F : QueuedMessage → QueuedMessage)
    (hF : ∀ m, (F m).status = Status.pending → F m = m)
    (a : QueuedMessage) (ha : a ∈ db) (hap : a.status = Status.pending)
    (hFa : (F a).status ≠ Status.pending) :
    pendingCount (db.map F) < pendingCount db := by
  rcases List.append_of_mem ha with ⟨l1, l2, rfl⟩
  have h1 := pendingCount_map_le l1 F hF
  have h2 := pendingCount_map_le l2 F hF
  simp only [List.map_append, List.map_cons, pendingCount, List.countP_append,
             List.countP_cons] at h1 h2 ⊢
  rw [if_neg (by simp [hFa]), if_pos (by simp [hap])]
  omega

theorem exists_pending_of_getPending_ne_nil {db : Store} {n : Nat}
    (h : getPending db n ≠ []) :
    ∃ a, a ∈ getPending db n ∧ a ∈ db ∧ a.status = Status.pending := by
  rcases List.exists_mem_of_ne_nil _ h with ⟨a, ha⟩
  have h2 := mem_pendingSorted.mp (List.mem_of_mem_take ha)
  exact ⟨a, ha, h2.1, h2.2⟩

theorem pendingCount_processBatch_lt {db : Store} {now n p : Nat}
    {inj : InjectPayload → Bool} (h : getPending db n ≠ []) :
    pendingCount (processBatch db now inj (getPending db n) p).1 <
      pendingCount db := by
  rw [processBatch_eq]
  rcases exists_pending_of_getPending_ne_nil h with ⟨a, hab, hadb, hap⟩
  exact pendingCount_map_lt db _ (fun m hm => batchApply_pending hm) a hadb hap
    (batchApply_mem_not_pending hab rfl)

/-- The drain loop's result does not depend on the fuel once the fuel exceeds
the number of pending rows: every non-empty batch strictly decreases that
number, so `processQueue`'s fuel of `pendingCount + 1` never cuts the loop
short. -/
theorem drainLoop_fuel_stable (cfg : SyncConfig) (env : SyncEnv) (now : Nat) :
    ∀ (f : Nat) (db : Store) (i p g : Nat),
    pendingCount db < f → pendingCount db < g →
    drainLoop cfg env now f db i p = drainLoop cfg env now g db i p := by
  intro f
  induction f with
  | zero => intro db i p g hf _; exact absurd hf (Nat.not_lt_zero _)
  | succ f ih =>
    intro db i p g hf hg
    cases g with
    | zero => exact absurd hg (Nat.not_lt_zero _)
    | succ g =>
      simp only [drainLoop]
      by_cases hb : (getPending db cfg.syncBatchSize).isEmpty = true
      · simp [hb]
      · simp only [hb, Bool.false_eq_true, if_false]
        by_cases ho : env.onlineAfter i = true
        · simp only [ho, if_true]
          have hne : getPending db cfg.syncBatchSize ≠ [] := by
            simpa [List.isEmpty_eq_false] using hb
          have hlt := @pendingCount_processBatch_lt db now cfg.syncBatchSize p
            env.injectOk hne
          exact ih _ (i + 1) _ g (by omega) (by omega)
        · simp [ho]

/-! ### C4: a failed row is never touched again -/

theorem inv_resetProcessing {d : QueuedMessage} {db : Store}
    (hd : d.status = Status.failed)
    (h : ∀ x ∈ db, x.id = d.id → x = d) :
    ∀ x ∈ (resetProcessing db).1, x.id = d.id → x = d := by
  intro x hx hxid
  rcases List.mem_map.mp hx with ⟨y, hy, rfl⟩
  have hyid : (if y.status = Status.processing then
      { y with status := Status.pending } else y).id = y.id := by
    by_cases hys : y.status = Status.processing <;> simp [hys]
  have hy2 : y = d := h y hy (by rw [← hyid]; exact hxid)
  subst hy2
  rw [if_neg (by rw [hd]; intro hc; cases hc)]

theorem inv_cleanup {d : QueuedMessage} {db : Store} {now maxAgeMs : Nat}
    (h : ∀ x ∈ db, x.id = d.id → x = d) :
    ∀ x ∈ (cleanup db now maxAgeMs).1, x.id = d.id → x = d := by
  intro x hx hxid
  exact h x (List.mem_filter.mp hx).1 hxid

theorem inv_processBatch {d : QueuedMessage} {db : Store} {now n p : Nat}
    {inj : InjectPayload → Bool}
    (hd : d.status = Status.failed)
    (h : ∀ x ∈ db, x.id = d.id → x = d) :
    ∀ x ∈ (processBatch db now inj (getPending db n) p).1, x.id = d.id → x = d := by
  intro x hx hxid
  rw [processBatch_eq] at hx
  rcases List.mem_map.mp hx with ⟨y, hy, rfl⟩
  have hyid : y.id = d.id := by rw [← batchApply_id inj now (getPending db n) y]; exact hxid
  have hy2 : y = d := h y hy hyid
  subst hy2
  have hnotmem : y.id ∉ (getPending db n).map (fun b => b.id) := by
    intro hmem
    rcases List.mem_map.mp hmem with ⟨msg, hmsg, hmsgid⟩
    have h2 := mem_pendingSorted.mp (List.mem_of_mem_take hmsg)
    have : msg = y := h msg h2.1 hmsgid
    rw [this] at h2
    rw [hd] at h2
    cases h2.2
  exact batchApply_not_mem hnotmem

theorem inv_drainLoop {d : QueuedMessage} (cfg : SyncConfig) (env : SyncEnv)
    (now : Nat) (hd : d.status = Status.failed) :
    ∀ (fuel : Nat) (db : Store) (i p : Nat),
    (∀ x ∈ db, x.id = d.id → x = d) →
    ∀ x ∈ (drainLoop cfg env now fuel db i p).1, x.id = d.id → x = d := by
  intro fuel
  induction fuel with
  | zero => intro db i p h; exact h
  | succ fuel ih =>
    intro db i p h
    simp only [drainLoop]
    by_cases hb : (getPending db cfg.syncBatchSize).isEmpty = true
    · simp only [hb, if_true]
      exact h
    · simp only [hb, Bool.false_eq_true, if_false]
      by_cases ho : env.onlineAfter i = true
      · simp only [ho, if_true]
        exact ih _ (i + 1) _ (inv_processBatch hd h)
      · simp only [ho, Bool.false_eq_true, if_false]
        exact inv_processBatch hd h

end Feria

namespace Feria

/-! ### C4: main theorem -/

theorem getPending_ids_nodup {db : Store} (n : Nat)
    (hnd : (db.map (fun m => m.id)).Nodup) :
    ((getPending db n).map (fun m => m.id)).Nodup :=
  ((List.take_sublist n (pendingSorted db)).map _).nodup (pendingSorted_ids_nodup hnd)

theorem batchApply_at_mem {inj : InjectPayload → Bool} {now : Nat}
    {batch : List QueuedMessage} (hnodup : (batch.map (fun b => b.id)).Nodup)
    {msg : QueuedMessage} (hmsg : msg ∈ batch) :
    batchApply inj now batch msg =
      { msg with
        status := if inj (injectPayload msg now) then Status.completed
                  else Status.failed,
        attempts := msg.attempts + 1, lastAttemptAt := some now } := by
  rcases List.append_of_mem hmsg with ⟨b1, b2, rfl⟩
  rw [List.map_append, List.map_cons, List.nodup_middle] at hnodup
  have hnm := (List.nodup_cons.mp hnodup).1
  have h1 : msg.id ∉ b1.map (fun b => b.id) := fun h => hnm (List.mem_append_left _ h)
  have h2 : msg.id ∉ b2.map (fun b => b.id) := fun h => hnm (List.mem_append_right _ h)
  have hfold : batchApply inj now (b1 ++ msg :: b2) msg =
      batchApply inj now b2 (applyMsg inj now msg (batchApply inj now b1 msg)) := by
    simp [batchApply, List.foldl_append]
  rw [hfold, batchApply_not_mem h1]
  have hu : applyMsg inj now msg msg =
      { msg with
        status := if inj (injectPayload msg now) then Status.completed
                  else Status.failed,
        attempts := msg.attempts + 1, lastAttemptAt := some now } := by
    unfold applyMsg
    rw [if_pos rfl]
    by_cases hinj : inj (injectPayload msg now) = true <;> simp [hinj]
  rw [hu]
  apply batchApply_not_mem
  simpa using h2

/-- C4: during a drain, every message of a `getPending` batch is driven to a
terminal status by `processBatch` — `completed` when its re-injection
succeeds, `failed` when it errors, with `attempts` incremented and
`lastAttemptAt` set — independently of the other messages' outcomes (one
failure never aborts the batch); `getPending` only ever returns `pending`
messages, so a `failed` message is excluded from every batch; and a message
that is `failed` before a `processQueue` run is, in the resulting store,
either deleted by cleanup or still exactly the same `failed` record — a later
sync never retries it. -/
theorem feria_C4 (cfg : SyncConfig) (env : SyncEnv) (now : Nat) (db : Store)
    (hnd : (db.map (fun m => m.id)).Nodup) :
    (∀ k p msg, msg ∈ getPending db k →
      ({ msg with
          status := if env.injectOk (injectPayload msg now) then Status.completed
                    else Status.failed,
          attempts := msg.attempts + 1,
          lastAttemptAt := some now } : QueuedMessage) ∈
        (processBatch db now env.injectOk (getPending db k) p).1)
    ∧ (∀ k m, m ∈ getPending db k → m.status = Status.pending)
    ∧ (∀ d, d ∈ db → d.status = Status.failed →
        ∀ x, x ∈ (processQueue cfg env now false db).2.1 → x.id = d.id → x = d) := by
  refine ⟨?_, ?_, ?_⟩
  · intro k p msg hmsg
    have hmdb : msg ∈ db := (mem_pendingSorted.mp (List.mem_of_mem_take hmsg)).1
    rw [processBatch_eq]
    exact List.mem_map.mpr ⟨msg, hmdb, batchApply_at_mem (getPending_ids_nodup k hnd) hmsg⟩
  · intro k m hm
    exact (mem_pendingSorted.mp (List.mem_of_mem_take hm)).2
  · intro d hd hdf x hx hxid
    have hinv : ∀ y ∈ db, y.id = d.id → y = d :=
      fun y hy hyid => List.inj_on_of_nodup_map hnd hy hd hyid
    simp only [processQueue, Bool.false_eq_true, if_false] at hx
    exact inv_drainLoop cfg env now hdf _ _ 0 0
      (inv_cleanup (inv_resetProcessing hdf hinv)) x hx hxid

/-- Witness for `feria_C4`: with an always-failing re-injection, the single
pending message of a one-element store ends the batch as `failed` with
`attempts` incremented. -/
theorem feria_C4_witness :
    ({ exBase with
        status := if exEnvFail.injectOk (injectPayload exBase 7) then Status.completed
                  else Status.failed,
        attempts := exBase.attempts + 1,
        lastAttemptAt := some 7 } : QueuedMessage) ∈
      (processBatch [exBase] 7 exEnvFail.injectOk (getPending [exBase] 10) 0).1 :=
  (feria_C4 exCfg exEnvFail 7 [exBase] (by decide)).1 10 0 exBase (by decide)

end Feria
